import Mathlib

/-!
Verification of the image-layout / page-assembly pipeline of the
AIO-Webtoon-Downloader repository (`comick_downloader.py` and
`sites/base.py`).

Images are modelled as lists of pixel rows (`List α`): an image's height is
the length of its row list, and vertical concatenation of images is list
append of their rows.  All heights and thresholds are `Int`, matching
Python's unbounded signed integers.  The models below start after PIL
decoding and width-normalisation: every modelled image is already resized
to the target width, so a row stands for one full-width pixel row.  The
`while` loop of `process_chapter_images` is modelled with explicit fuel so
that its termination (and non-termination for non-positive target heights)
can be stated and proved.
-/

namespace AIOWebtoon

/-- Height (in pixel rows) of an image modelled as its list of rows. -/
def imgH {α : Type} (img : List α) : Int :=
  (img.length : Int)

/-- Total height of a list of image fragments. -/
def fragsH {α : Type} (frags : List (List α)) : Int :=
  (frags.map (fun f => imgH f)).sum

/-- Model of `combine_images(images, width)`: vertical concatenation of the
fragments into one image.  Returns `none` exactly when the fragment list is
empty, the canvas width is non-positive, or the total height is
non-positive, as in the source. -/
def combine_images {α : Type} (images : List (List α)) (width : Int) :
    Option (List α) :=
  match images with
  | [] => none
  | _ :: _ =>
    if width ≤ 0 ∨ fragsH images ≤ 0 then none
    else some images.flatten

/-- State of the fill-the-gap loop of `process_chapter_images`:
`final_pages`, `page_buffer` and `buffer_height`. -/
structure CompState (α : Type) where
  final_pages : List (List α)
  page_buffer : List (List α)
  buffer_height : Int

/-- Finalising the page buffer: `combine_images(page_buffer, target_w)` is
appended to `final_pages` when it yields an image, and the buffer is
reset. -/
def flushBuffer {α : Type} (target_w : Int) (st : CompState α) : CompState α :=
  match combine_images st.page_buffer target_w with
  | some page => ⟨st.final_pages ++ [page], [], 0⟩
  | none => ⟨st.final_pages, [], 0⟩

/-- The inner `while True` loop of `process_chapter_images`, processing one
(already width-normalised) image against the current buffer state.  `fuel`
bounds the number of iterations; the source loop has no such bound, so the
model returns `none` when the bound is hit. -/
def fillLoop {α : Type} (target_w target_h : Int) :
    Nat → List α → CompState α → Option (CompState α)
  | 0, _, _ => none
  | fuel + 1, current_image, st =>
    let space_left := target_h - st.buffer_height
    if imgH current_image ≤ space_left then
      some ⟨st.final_pages, st.page_buffer ++ [current_image],
        st.buffer_height + imgH current_image⟩
    else
      let next :=
        if 0 < space_left then
          (st.page_buffer ++ [current_image.take space_left.toNat],
            current_image.drop space_left.toNat)
        else
          (st.page_buffer, current_image)
      fillLoop target_w target_h fuel next.2
        (flushBuffer target_w ⟨st.final_pages, next.1, st.buffer_height⟩)

/-- The outer `for` loop of `process_chapter_images` over the input
images. -/
def imagesLoop {α : Type} (target_w target_h : Int) (fuel : Nat) :
    List (List α) → CompState α → Option (CompState α)
  | [], st => some st
  | img :: rest, st =>
    match fillLoop target_w target_h fuel img st with
    | none => none
    | some st' => imagesLoop target_w target_h fuel rest st'

/-- Model of `process_chapter_images(input_paths, target_w, target_h)` on
decoded, width-normalised images: the fill-the-gap loop over all inputs
followed by the final flush of a non-empty buffer. -/
def process_chapter_images {α : Type} (fuel : Nat) (input_images : List (List α))
    (target_w target_h : Int) : Option (List (List α)) :=
  match imagesLoop target_w target_h fuel input_images ⟨[], [], 0⟩ with
  | none => none
  | some st =>
    match st.page_buffer with
    | [] => some st.final_pages
    | _ :: _ => some (flushBuffer target_w st).final_pages

/-- All pixel rows held by a compositor state: the rows of the finalized
pages followed by the rows buffered for the next page. -/
def stJoin {α : Type} (st : CompState α) : List α :=
  st.final_pages.flatten ++ st.page_buffer.flatten

/-- Invariant of the fill-the-gap loop: `buffer_height` is the total
height of the buffered fragments, it never exceeds the target height, and
every finalized page is exactly `target_h` tall. -/
structure CompInv {α : Type} (target_h : Int) (st : CompState α) : Prop where
  hsum : st.buffer_height = fragsH st.page_buffer
  hle : st.buffer_height ≤ target_h
  hpages : ∀ p ∈ st.final_pages, imgH p = target_h

/-- Termination measure for one run of the inner loop. -/
def compMeasure {α : Type} (target_h : Int) (img : List α) (st : CompState α) :
    Nat :=
  2 * img.length + (if st.buffer_height = target_h then 1 else 0)

theorem fragsH_nil {α : Type} : fragsH ([] : List (List α)) = 0 := rfl

theorem fragsH_append {α : Type} (a b : List (List α)) :
    fragsH (a ++ b) = fragsH a + fragsH b := by
  simp [fragsH]

theorem fragsH_singleton {α : Type} (img : List α) :
    fragsH [img] = imgH img := by
  simp [fragsH]

theorem imgH_nonneg {α : Type} (img : List α) : 0 ≤ imgH img := by
  simp [imgH]

theorem fragsH_nonneg {α : Type} (frags : List (List α)) : 0 ≤ fragsH frags := by
  induction frags with
  | nil => simp [fragsH]
  | cons f fs ih =>
    have : fragsH (f :: fs) = imgH f + fragsH fs := by simp [fragsH, imgH]
    rw [this]
    have := imgH_nonneg f
    omega

theorem imgH_flatten {α : Type} (frags : List (List α)) :
    imgH frags.flatten = fragsH frags := by
  induction frags with
  | nil => simp [fragsH, imgH]
  | cons f fs ih =>
    simp only [List.flatten_cons, imgH, List.length_append] at *
    have : fragsH (f :: fs) = imgH f + fragsH fs := by simp [fragsH, imgH]
    rw [this, ← ih]
    simp [imgH]

theorem flatten_eq_nil_of_nonpos {α : Type} (frags : List (List α))
    (h : fragsH frags ≤ 0) : frags.flatten = [] := by
  have h2 := imgH_flatten frags
  rw [← h2] at h
  simp only [imgH] at h
  have : frags.flatten.length = 0 := by omega
  exact List.eq_nil_of_length_eq_zero this

theorem fragsH_pos_ne_nil {α : Type} (frags : List (List α))
    (h : 0 < fragsH frags) : frags ≠ [] := by
  intro he
  rw [he, fragsH_nil] at h
  omega

/-- `combine_images` on a buffer with positive total height and positive
canvas width yields the vertical concatenation of the fragments. -/
theorem combine_images_of_pos {α : Type} (images : List (List α)) (w : Int)
    (hw : 0 < w) (hpos : 0 < fragsH images) :
    combine_images images w = some images.flatten := by
  match images with
  | [] => rw [fragsH_nil] at hpos; omega
  | x :: xs =>
    have : ¬(w ≤ 0 ∨ fragsH (x :: xs) ≤ 0) := by
      push_neg
      exact ⟨hw, hpos⟩
    simp [combine_images, this]

theorem flushBuffer_of_pos {α : Type} (tw : Int) (st : CompState α)
    (hw : 0 < tw) (hpos : 0 < fragsH st.page_buffer) :
    flushBuffer tw st = ⟨st.final_pages ++ [st.page_buffer.flatten], [], 0⟩ := by
  unfold flushBuffer
  rw [combine_images_of_pos st.page_buffer tw hw hpos]

theorem flushBuffer_of_nonpos_w {α : Type} (tw : Int) (st : CompState α)
    (hw : tw ≤ 0) : flushBuffer tw st = ⟨st.final_pages, [], 0⟩ := by
  unfold flushBuffer
  match hb : st.page_buffer with
  | [] => simp [combine_images]
  | x :: xs =>
    have : (tw ≤ 0 ∨ fragsH (x :: xs) ≤ 0) := Or.inl hw
    simp [combine_images, this]

theorem fillLoop_succ_fit {α : Type} (tw th : Int) (fuel : Nat) (img : List α)
    (st : CompState α) (h : imgH img ≤ th - st.buffer_height) :
    fillLoop tw th (fuel + 1) img st =
      some ⟨st.final_pages, st.page_buffer ++ [img],
        st.buffer_height + imgH img⟩ := by
  simp [fillLoop, h]

theorem fillLoop_succ_crop {α : Type} (tw th : Int) (fuel : Nat) (img : List α)
    (st : CompState α) (h1 : ¬ imgH img ≤ th - st.buffer_height)
    (h2 : 0 < th - st.buffer_height) :
    fillLoop tw th (fuel + 1) img st =
      fillLoop tw th fuel (img.drop (th - st.buffer_height).toNat)
        (flushBuffer tw ⟨st.final_pages,
          st.page_buffer ++ [img.take (th - st.buffer_height).toNat],
          st.buffer_height⟩) := by
  simp [fillLoop, h1, h2]

theorem fillLoop_succ_noSpace {α : Type} (tw th : Int) (fuel : Nat)
    (img : List α) (st : CompState α) (h1 : ¬ imgH img ≤ th - st.buffer_height)
    (h2 : ¬ 0 < th - st.buffer_height) :
    fillLoop tw th (fuel + 1) img st =
      fillLoop tw th fuel img
        (flushBuffer tw ⟨st.final_pages, st.page_buffer, st.buffer_height⟩) := by
  simp [fillLoop, h1, h2]

/-- Main lemma on the inner loop: with a positive target height and enough
fuel it terminates, preserves the buffer invariant, and (when the canvas
width is positive) moves exactly the rows of the processed image into the
state. -/
theorem fillLoop_ok {α : Type} (tw th : Int) (hth : 0 < th) :
    ∀ (fuel : Nat) (img : List α) (st : CompState α), CompInv th st →
      compMeasure th img st < fuel →
      ∃ st', fillLoop tw th fuel img st = some st' ∧ CompInv th st' ∧
        (0 < tw → stJoin st' = stJoin st ++ img) := by
  intro fuel
  induction fuel with
  | zero => intro img st _ hm; omega
  | succ fuel ih =>
    intro img st hinv hm
    by_cases hfit : imgH img ≤ th - st.buffer_height
    · refine ⟨_, fillLoop_succ_fit tw th fuel img st hfit, ?_, ?_⟩
      · refine ⟨?_, ?_, ?_⟩
        · rw [fragsH_append, fragsH_singleton, hinv.hsum]
        · have := imgH_nonneg img
          simp only
          omega
        · exact hinv.hpages
      · intro _
        simp [stJoin]
    · by_cases hsp : 0 < th - st.buffer_height
      · -- crop case: fill the remaining gap, flush, continue with the rest
        rw [fillLoop_succ_crop tw th fuel img st hfit hsp]
        set t := (th - st.buffer_height).toNat with ht
        have htc : (t : Int) = th - st.buffer_height :=
          Int.toNat_of_nonneg (le_of_lt hsp)
        have hlen : t < img.length := by
          simp only [imgH] at hfit
          omega
        have htpos : 0 < t := by omega
        have htake : imgH (img.take t) = th - st.buffer_height := by
          simp only [imgH, List.length_take]
          omega
        have hbuf' : fragsH (st.page_buffer ++ [img.take t]) = th := by
          rw [fragsH_append, fragsH_singleton, htake, ← hinv.hsum]
          ring
        have hbufpos : 0 < fragsH (st.page_buffer ++ [img.take t]) := by
          rw [hbuf']; exact hth
        have hmeas : st.buffer_height ≠ th := by omega
        have hm' : compMeasure th img st = 2 * img.length := by
          simp [compMeasure, hmeas]
        by_cases hw : 0 < tw
        · rw [flushBuffer_of_pos tw _ hw hbufpos]
          have hinv1 : CompInv th
              (⟨st.final_pages ++ [(st.page_buffer ++ [img.take t]).flatten],
                [], 0⟩ : CompState α) := by
            refine ⟨by simp [fragsH_nil], le_of_lt hth, ?_⟩
            intro p hp
            rcases List.mem_append.mp hp with h | h
            · exact hinv.hpages p h
            · rcases List.mem_singleton.mp h with rfl
              rw [imgH_flatten, hbuf']
          have hm1 : compMeasure th (img.drop t)
              (⟨st.final_pages ++ [(st.page_buffer ++ [img.take t]).flatten],
                [], 0⟩ : CompState α) < fuel := by
            simp only [compMeasure, List.length_drop]
            have : ¬ (0 : Int) = th := by omega
            simp only [this, if_false]
            omega
          obtain ⟨st', heq, hinv', hjoin⟩ := ih (img.drop t) _ hinv1 hm1
          refine ⟨st', heq, hinv', ?_⟩
          intro hw'
          rw [hjoin hw']
          simp only [stJoin, List.flatten_append, List.flatten_cons,
            List.flatten_nil, List.append_nil]
          simp only [List.append_assoc, List.take_append_drop]
        · push_neg at hw
          rw [flushBuffer_of_nonpos_w tw _ hw]
          have hinv1 : CompInv th
              (⟨st.final_pages, [], 0⟩ : CompState α) :=
            ⟨by simp [fragsH_nil], le_of_lt hth, hinv.hpages⟩
          have hm1 : compMeasure th (img.drop t)
              (⟨st.final_pages, [], 0⟩ : CompState α) < fuel := by
            simp only [compMeasure, List.length_drop]
            have : ¬ (0 : Int) = th := by omega
            simp only [this, if_false]
            omega
          obtain ⟨st', heq, hinv', _⟩ := ih (img.drop t) _ hinv1 hm1
          refine ⟨st', heq, hinv', ?_⟩
          intro hw'
          omega
      · -- the buffer is exactly full: flush it and retry the whole image
        rw [fillLoop_succ_noSpace tw th fuel img st hfit hsp]
        have hbh : st.buffer_height = th := by
          have := hinv.hle
          omega
        have hbufpos : 0 < fragsH st.page_buffer := by
          rw [← hinv.hsum, hbh]; exact hth
        have hm0 : compMeasure th img st = 2 * img.length + 1 := by
          simp [compMeasure, hbh]
        by_cases hw : 0 < tw
        · have hflush := flushBuffer_of_pos tw
            (⟨st.final_pages, st.page_buffer, st.buffer_height⟩ : CompState α)
            hw hbufpos
          rw [hflush]
          have hinv1 : CompInv th
              (⟨st.final_pages ++ [st.page_buffer.flatten], [], 0⟩ :
                CompState α) := by
            refine ⟨by simp [fragsH_nil], le_of_lt hth, ?_⟩
            intro p hp
            rcases List.mem_append.mp hp with h | h
            · exact hinv.hpages p h
            · rcases List.mem_singleton.mp h with rfl
              rw [imgH_flatten, ← hinv.hsum, hbh]
          have hm1 : compMeasure th img
              (⟨st.final_pages ++ [st.page_buffer.flatten], [], 0⟩ :
                CompState α) < fuel := by
            simp only [compMeasure]
            have : ¬ (0 : Int) = th := by omega
            simp only [this, if_false]
            omega
          obtain ⟨st', heq, hinv', hjoin⟩ := ih img _ hinv1 hm1
          refine ⟨st', heq, hinv', ?_⟩
          intro hw'
          rw [hjoin hw']
          simp [stJoin, List.flatten_append]
        · push_neg at hw
          have hflush := flushBuffer_of_nonpos_w tw
            (⟨st.final_pages, st.page_buffer, st.buffer_height⟩ : CompState α)
            hw
          rw [hflush]
          have hinv1 : CompInv th
              (⟨st.final_pages, [], 0⟩ : CompState α) :=
            ⟨by simp [fragsH_nil], le_of_lt hth, hinv.hpages⟩
          have hm1 : compMeasure th img
              (⟨st.final_pages, [], 0⟩ : CompState α) < fuel := by
            simp only [compMeasure]
            have : ¬ (0 : Int) = th := by omega
            simp only [this, if_false]
            omega
          obtain ⟨st', heq, hinv', _⟩ := ih img _ hinv1 hm1
          refine ⟨st', heq, hinv', ?_⟩
          intro hw'
          omega

theorem flushBuffer_of_nonpos_h {α : Type} (tw : Int) (st : CompState α)
    (h : fragsH st.page_buffer ≤ 0) :
    flushBuffer tw st = ⟨st.final_pages, [], 0⟩ := by
  unfold flushBuffer
  match hb : st.page_buffer with
  | [] => simp [combine_images]
  | x :: xs =>
    rw [hb] at h
    have : (tw ≤ 0 ∨ fragsH (x :: xs) ≤ 0) := Or.inr h
    simp [combine_images, this]

theorem imagesLoop_ok {α : Type} (tw th : Int) (hth : 0 < th) (fuel : Nat) :
    ∀ (imgs : List (List α)) (st : CompState α), CompInv th st →
      (∀ img ∈ imgs, 2 * img.length + 1 < fuel) →
      ∃ st', imagesLoop tw th fuel imgs st = some st' ∧ CompInv th st' ∧
        (0 < tw → stJoin st' = stJoin st ++ imgs.flatten) := by
  intro imgs
  induction imgs with
  | nil =>
    intro st hinv _
    exact ⟨st, rfl, hinv, fun _ => by simp⟩
  | cons img rest ih =>
    intro st hinv hfuel
    have hm : compMeasure th img st < fuel := by
      have := hfuel img (by simp)
      simp only [compMeasure]
      split <;> omega
    obtain ⟨st1, heq1, hinv1, hjoin1⟩ := fillLoop_ok tw th hth fuel img st hinv hm
    obtain ⟨st', heq', hinv', hjoin'⟩ :=
      ih st1 hinv1 (fun i hi => hfuel i (by simp [hi]))
    refine ⟨st', ?_, hinv', ?_⟩
    · simp [imagesLoop, heq1, heq']
    · intro hw
      rw [hjoin' hw, hjoin1 hw]
      simp [List.append_assoc]

/-- Full specification of the modelled `process_chapter_images`: with
positive target width and height and sufficient fuel it succeeds, every
page but the last is exactly `target_h` tall, and the pages concatenate to
exactly the concatenation of the (width-normalised) inputs. -/
theorem process_chapter_images_ok {α : Type} (tw th : Int) (hw : 0 < tw)
    (hth : 0 < th) (imgs : List (List α)) (fuel : Nat)
    (hfuel : ∀ img ∈ imgs, 2 * img.length + 1 < fuel) :
    ∃ pages, process_chapter_images fuel imgs tw th = some pages ∧
      (∀ p ∈ pages.dropLast, imgH p = th) ∧
      pages.flatten = imgs.flatten := by
  have hinv0 : CompInv th (⟨[], [], 0⟩ : CompState α) :=
    ⟨by simp [fragsH_nil], le_of_lt hth, by simp⟩
  obtain ⟨st', heq, hinv', hjoin⟩ :=
    imagesLoop_ok tw th hth fuel imgs ⟨[], [], 0⟩ hinv0 hfuel
  have hjoin' : stJoin st' = imgs.flatten := by
    rw [hjoin hw]; simp [stJoin]
  obtain ⟨fp, pb, bh⟩ := st'
  unfold process_chapter_images
  rw [heq]
  match pb with
  | [] =>
    dsimp only
    refine ⟨fp, rfl, ?_, ?_⟩
    · intro p hp
      exact hinv'.hpages p (List.mem_of_mem_dropLast hp)
    · rw [← hjoin']
      simp [stJoin]
  | x :: xs =>
    dsimp only
    by_cases hpos : 0 < fragsH (x :: xs)
    · rw [flushBuffer_of_pos tw ⟨fp, x :: xs, bh⟩ hw hpos]
      refine ⟨_, rfl, ?_, ?_⟩
      · intro p hp
        rw [List.dropLast_concat] at hp
        exact hinv'.hpages p hp
      · rw [← hjoin']
        simp [stJoin]
    · push_neg at hpos
      rw [flushBuffer_of_nonpos_h tw ⟨fp, x :: xs, bh⟩ hpos]
      refine ⟨fp, rfl, ?_, ?_⟩
      · intro p hp
        exact hinv'.hpages p (List.mem_of_mem_dropLast hp)
      · rw [← hjoin']
        have := flatten_eq_nil_of_nonpos (x :: xs) hpos
        simp [stJoin, this]

/-- C1: for every finite sequence of decodable input images (modelled
width-normalised, as lists of pixel rows) and every `target_height > 0`
(with the positive target width used by all call sites), the fill-the-gap
algorithm terminates and returns pages such that every page except the
last is exactly `target_height` tall, the total number of pixel rows is
preserved, and the concatenation of the output pages equals the
concatenation of the width-normalised inputs in order (no content
duplicated, dropped, or reordered). -/
theorem compositor_height_and_content_invariant {α : Type} (tw th : Int)
    (hw : 0 < tw) (hth : 0 < th) (imgs : List (List α)) (fuel : Nat)
    (hfuel : ∀ img ∈ imgs, 2 * img.length + 1 < fuel) :
    ∃ pages, process_chapter_images fuel imgs tw th = some pages ∧
      (∀ p ∈ pages.dropLast, imgH p = th) ∧
      fragsH pages = fragsH imgs ∧
      pages.flatten = imgs.flatten := by
  obtain ⟨pages, heq, hh, hflat⟩ :=
    process_chapter_images_ok tw th hw hth imgs fuel hfuel
  refine ⟨pages, heq, hh, ?_, hflat⟩
  rw [← imgH_flatten, ← imgH_flatten, hflat]

/-- Witness for C1 at a concrete input: two images of heights 3 and 2,
target width 5, target height 2. -/
theorem compositor_height_and_content_invariant_witness :
    ∃ pages,
      process_chapter_images 8 [[0, 1, 2], [3, 4]] 5 2 = some pages ∧
      (∀ p ∈ pages.dropLast, imgH p = 2) ∧
      fragsH pages = fragsH [[0, 1, 2], [3, 4]] ∧
      pages.flatten = [[0, 1, 2], [3, 4]].flatten :=
  compositor_height_and_content_invariant 5 2 (by decide) (by decide)
    [[0, 1, 2], [3, 4]] 8 (by decide)

theorem flushBuffer_bh {α : Type} (tw : Int) (st : CompState α) :
    (flushBuffer tw st).buffer_height = 0 := by
  cases h : combine_images st.page_buffer tw <;> simp [flushBuffer, h]

/-- With a non-positive target height, the inner loop never terminates on
an image with at least one row: every flush leaves the buffer height at
zero and the image untouched, so no fuel suffices. -/
theorem fillLoop_none_of_nonpos {α : Type} (tw th : Int) (hth : th ≤ 0) :
    ∀ (fuel : Nat) (img : List α) (st : CompState α),
      0 ≤ st.buffer_height → img ≠ [] →
      fillLoop tw th fuel img st = none := by
  intro fuel
  induction fuel with
  | zero => intro img st _ _; rfl
  | succ fuel ih =>
    intro img st hbh hne
    have hlen : 0 < imgH img := by
      simp only [imgH]
      exact_mod_cast List.length_pos.mpr hne
    have hfit : ¬ imgH img ≤ th - st.buffer_height := by omega
    have hsp : ¬ 0 < th - st.buffer_height := by omega
    rw [fillLoop_succ_noSpace tw th fuel img st hfit hsp]
    exact ih img _ (by rw [flushBuffer_bh]) hne

theorem fillLoop_some_bh_nonneg {α : Type} (tw th : Int) :
    ∀ (fuel : Nat) (img : List α) (st st' : CompState α),
      0 ≤ st.buffer_height → fillLoop tw th fuel img st = some st' →
      0 ≤ st'.buffer_height := by
  intro fuel
  induction fuel with
  | zero => intro img st st' _ h; cases h
  | succ fuel ih =>
    intro img st st' hbh h
    by_cases hfit : imgH img ≤ th - st.buffer_height
    · rw [fillLoop_succ_fit tw th fuel img st hfit] at h
      cases h
      have := imgH_nonneg img
      simp only
      omega
    · by_cases hsp : 0 < th - st.buffer_height
      · rw [fillLoop_succ_crop tw th fuel img st hfit hsp] at h
        exact ih _ _ _ (by rw [flushBuffer_bh]) h
      · rw [fillLoop_succ_noSpace tw th fuel img st hfit hsp] at h
        exact ih _ _ _ (by rw [flushBuffer_bh]) h

theorem imagesLoop_none_of_nonpos {α : Type} (tw th : Int) (hth : th ≤ 0)
    (fuel : Nat) :
    ∀ (imgs : List (List α)) (st : CompState α), 0 ≤ st.buffer_height →
      (∃ img ∈ imgs, img ≠ []) → imagesLoop tw th fuel imgs st = none := by
  intro imgs
  induction imgs with
  | nil =>
    rintro st _ ⟨img, hmem, _⟩
    cases hmem
  | cons i rest ih =>
    rintro st hbh ⟨img, hmem, hne⟩
    rcases List.mem_cons.mp hmem with rfl | hmem'
    · have h0 := fillLoop_none_of_nonpos tw th hth fuel img st hbh hne
      simp [imagesLoop, h0]
    · cases hf : fillLoop tw th fuel i st with
      | none => simp [imagesLoop, hf]
      | some st1 =>
        have hb1 := fillLoop_some_bh_nonneg tw th fuel i st st1 hbh hf
        simp only [imagesLoop, hf]
        exact ih st1 hb1 ⟨img, hmem', hne⟩

/-- Termination of the whole pipeline for positive target heights, with no
assumption on the canvas width. -/
theorem process_some_of_pos {α : Type} (tw th : Int) (hth : 0 < th)
    (imgs : List (List α)) (fuel : Nat)
    (hfuel : ∀ img ∈ imgs, 2 * img.length + 1 < fuel) :
    ∃ pages, process_chapter_images fuel imgs tw th = some pages := by
  have hinv0 : CompInv th (⟨[], [], 0⟩ : CompState α) :=
    ⟨by simp [fragsH_nil], le_of_lt hth, by simp⟩
  obtain ⟨st', heq, _, _⟩ :=
    imagesLoop_ok tw th hth fuel imgs ⟨[], [], 0⟩ hinv0 hfuel
  obtain ⟨fp, pb, bh⟩ := st'
  unfold process_chapter_images
  rw [heq]
  match pb with
  | [] => exact ⟨fp, rfl⟩
  | x :: xs => exact ⟨_, rfl⟩

/-- C10: the fill-the-gap loop terminates for every finite input exactly
when the target height permits progress: with `target_h > 0` some fuel
always suffices, while with `target_h ≤ 0` and at least one decodable
input image of positive height no amount of fuel terminates the inner
loop. -/
theorem compositor_termination_iff_progress {α : Type} (tw th : Int) :
    (0 < th → ∀ imgs : List (List α), ∃ fuel pages,
        process_chapter_images fuel imgs tw th = some pages) ∧
    (th ≤ 0 → ∀ imgs : List (List α), (∃ img ∈ imgs, img ≠ []) →
        ∀ fuel, process_chapter_images fuel imgs tw th = none) := by
  constructor
  · intro hth imgs
    refine ⟨2 * (imgs.map List.length).sum + 2, ?_⟩
    apply process_some_of_pos tw th hth imgs
    intro img hmem
    have : img.length ≤ (imgs.map List.length).sum :=
      List.single_le_sum (fun x _ => Nat.zero_le x) img.length
        (List.mem_map_of_mem List.length hmem)
    omega
  · intro hth imgs hex fuel
    have h0 := imagesLoop_none_of_nonpos tw th hth fuel imgs ⟨[], [], 0⟩
      (by simp) hex
    unfold process_chapter_images
    rw [h0]

/-- Witness for C10: with `target_h = 1` the pipeline terminates on a
one-image input, while with `target_h = 0` it runs forever on the same
input. -/
theorem compositor_termination_iff_progress_witness :
    (∃ fuel pages, process_chapter_images fuel [[5]] 1 1 = some pages) ∧
    (∀ fuel, process_chapter_images fuel [[5]] 1 0 = none) :=
  ⟨(compositor_termination_iff_progress 1 1).1 (by decide) [[5]],
   fun fuel => (compositor_termination_iff_progress 1 0).2 (by decide) [[5]]
     ⟨[5], by decide, by decide⟩ fuel⟩

/-! ### ImageFetcher: `dl_image` / `_try_download_url`

The network is abstracted as an oracle `net : List Char → Nat → Bool`
mapping a request URL and a retry index to success of that attempt; the
model returns both the result and the ordered log of requests issued, so
that "exactly N attempts and no further requests" is provable.  URLs and
paths are lists of characters. -/

/-- Index of the last occurrence of `c`, or `-1` (as in Python `rfind`). -/
def rfindAux (c : Char) : List Char → Int → Int → Int
  | [], _, best => best
  | x :: xs, i, best => rfindAux c xs (i + 1) (if x = c then i else best)

def rfindIdx (c : Char) (l : List Char) : Int :=
  rfindAux c l 0 (-1)

/-- Model of `os.path.splitext` (posix): split at the last dot, provided
it comes after the last path separator and the base name has a non-dot
character before it (leading dots never start an extension). -/
def splitextL (p : List Char) : List Char × List Char :=
  let sepIndex := rfindIdx '/' p
  let dotIndex := rfindIdx '.' p
  if decide (sepIndex < dotIndex) &&
      ((p.take dotIndex.toNat).drop (sepIndex + 1).toNat).any
        (fun ch => ch != '.') then
    (p.take dotIndex.toNat, p.drop dotIndex.toNat)
  else (p, [])

def extensions_to_try : List (List Char) :=
  [".webp".toList, ".png".toList, ".jpg".toList, ".jpeg".toList,
    ".avif".toList]

/-- The ordered candidate URL list generated by `dl_image`: the URL, its
five extension variants, the `-m` variant with the original extension,
and the five `-m` extension variants. -/
def urls_to_try (url : List Char) : List (List Char) :=
  let base_url := (splitextL url).1
  let original_ext := (splitextL url).2
  ([url] ++ extensions_to_try.map (fun e => base_url ++ e)) ++
    ([base_url ++ "-m".toList ++ original_ext] ++
      extensions_to_try.map (fun e => base_url ++ "-m".toList ++ e))

/-- Order-preserving de-duplication, as `dict.fromkeys` keeps the first
occurrence of each key. -/
def dedupKeepFirst (l : List (List Char)) : List (List Char) :=
  l.foldl (fun acc u => if u ∈ acc then acc else acc ++ [u]) []

def unique_variants (url : List Char) : List (List Char) :=
  dedupKeepFirst (urls_to_try url)

/-- Model of `_try_download_url`'s retry loop: up to `k` attempts at the
same URL starting from retry index `attempt`; returns the success flag and
the request log. -/
def tryDownloadUrl (net : List Char → Nat → Bool) (url : List Char) :
    Nat → Nat → Bool × List (List Char)
  | 0, _ => (false, [])
  | k + 1, attempt =>
    if net url attempt then (true, [url])
    else
      let r := tryDownloadUrl net url k (attempt + 1)
      (r.1, url :: r.2)

/-- The candidate loop of `dl_image`: try each variant with 2 retries,
stopping at the first success. -/
def dlLoop (net : List Char → Nat → Bool) (pth : List Char) :
    List (List Char) → Option (List Char) × List (List Char)
  | [] => (none, [])
  | u :: rest =>
    let r := tryDownloadUrl net u 2 0
    if r.1 then (some pth, r.2)
    else
      let r2 := dlLoop net pth rest
      (r2.1, r.2 ++ r2.2)

/-- Model of `dl_image(url, folder, name, scraper)`: the destination path
is `os.path.join(folder, name)` and the de-duplicated variants are tried
in order. -/
def dl_image (net : List Char → Nat → Bool) (url folder name : List Char) :
    Option (List Char) × List (List Char) :=
  dlLoop net (folder ++ '/' :: name) (unique_variants url)

theorem tryDownloadUrl_two_fail (net : List Char → Nat → Bool)
    (u : List Char) (a : Nat) (h0 : net u a = false)
    (h1 : net u (a + 1) = false) :
    tryDownloadUrl net u 2 a = (false, [u, u]) := by
  simp [tryDownloadUrl, h0, h1]

theorem tryDownloadUrl_succ_first (net : List Char → Nat → Bool)
    (u : List Char) (a : Nat) (h0 : net u a = true) :
    tryDownloadUrl net u 2 a = (true, [u]) := by
  simp [tryDownloadUrl, h0]

theorem tryDownloadUrl_succ_second (net : List Char → Nat → Bool)
    (u : List Char) (a : Nat) (h0 : net u a = false)
    (h1 : net u (a + 1) = true) :
    tryDownloadUrl net u 2 a = (true, [u, u]) := by
  simp [tryDownloadUrl, h0, h1]

theorem dlLoop_all_fail (net : List Char → Nat → Bool) (pth : List Char) :
    ∀ l : List (List Char), (∀ u ∈ l, ∀ a, net u a = false) →
      dlLoop net pth l = (none, l.flatMap (fun u => [u, u])) := by
  intro l
  induction l with
  | nil => intro _; rfl
  | cons u rest ih =>
    intro hfail
    have h2 := tryDownloadUrl_two_fail net u 0 (hfail u (by simp) 0)
      (hfail u (by simp) 1)
    have hrest := ih (fun v hv a => hfail v (by simp [hv]) a)
    simp [dlLoop, h2, hrest]

theorem dlLoop_first_success (net : List Char → Nat → Bool)
    (pth : List Char) :
    ∀ (l : List (List Char)) (k : Nat) (hk : k < l.length),
      (∀ j (hj : j < k), ∀ a, net (l.get ⟨j, lt_trans hj hk⟩) a = false) →
      (net (l.get ⟨k, hk⟩) 0 = true ∨ net (l.get ⟨k, hk⟩) 1 = true) →
      dlLoop net pth l =
        (some pth, (l.take k).flatMap (fun u => [u, u]) ++
          (if net (l.get ⟨k, hk⟩) 0 then [l.get ⟨k, hk⟩]
           else [l.get ⟨k, hk⟩, l.get ⟨k, hk⟩])) := by
  intro l
  induction l with
  | nil => intro k hk; simp at hk
  | cons u rest ih =>
    intro k hk hprev hsucc
    match k with
    | 0 =>
      simp only [List.get] at hsucc ⊢
      rcases h0 : net u 0 with _ | _
      · rcases hsucc with hs | hs
        · rw [h0] at hs; cases hs
        · have := tryDownloadUrl_succ_second net u 0 h0 hs
          simp [dlLoop, this, h0]
      · have := tryDownloadUrl_succ_first net u 0 h0
        simp [dlLoop, this, h0]
    | k + 1 =>
      have hu0 : net u 0 = false := hprev 0 (by omega) 0
      have hu1 : net u 1 = false := hprev 0 (by omega) 1
      have h2 := tryDownloadUrl_two_fail net u 0 hu0 hu1
      have hk' : k < rest.length := by
        simp at hk; omega
      have hrest := ih k hk'
        (fun j hj a => hprev (j + 1) (by omega) a)
        (by simpa using hsucc)
      simp only [List.get] at hrest ⊢
      simp [dlLoop, h2, hrest]

/-- C3: if every generated candidate variant fails on every try,
`dl_image` returns `None` after exactly `len(unique_variants) * 2`
attempts, trying the de-duplicated candidates in order with two attempts
each and making no further requests; and if all variants before the
`k`-th fail while the `k`-th succeeds, it returns the destination path
without touching any later variant. -/
theorem pairFst {A B : Type} (a : A) (b : B) : (a, b).1 = a := rfl

theorem pairSnd {A B : Type} (a : A) (b : B) : (a, b).2 = b := rfl

theorem flatMap_pair_length {α : Type} (l : List α) :
    (l.flatMap (fun u => [u, u])).length = l.length * 2 := by
  induction l with
  | nil => rfl
  | cons u rest ih => simp [List.flatMap_cons, ih]; omega

theorem fetch_variant_exhaustion (net : List Char → Nat → Bool)
    (url folder name : List Char) :
    ((∀ u ∈ unique_variants url, ∀ a, net u a = false) →
      (dl_image net url folder name).1 = none ∧
      (dl_image net url folder name).2 =
        (unique_variants url).flatMap (fun u => [u, u]) ∧
      (dl_image net url folder name).2.length =
        (unique_variants url).length * 2) ∧
    (∀ (k : Nat) (hk : k < (unique_variants url).length),
      (∀ j (hj : j < k), ∀ a,
        net ((unique_variants url).get ⟨j, lt_trans hj hk⟩) a = false) →
      (net ((unique_variants url).get ⟨k, hk⟩) 0 = true ∨
        net ((unique_variants url).get ⟨k, hk⟩) 1 = true) →
      (dl_image net url folder name).1 = some (folder ++ '/' :: name) ∧
      (dl_image net url folder name).2 =
        ((unique_variants url).take k).flatMap (fun u => [u, u]) ++
          (if net ((unique_variants url).get ⟨k, hk⟩) 0
           then [(unique_variants url).get ⟨k, hk⟩]
           else [(unique_variants url).get ⟨k, hk⟩,
             (unique_variants url).get ⟨k, hk⟩])) := by
  constructor
  · intro hfail
    have hd : dl_image net url folder name =
        (none, (unique_variants url).flatMap (fun u => [u, u])) :=
      dlLoop_all_fail net (folder ++ '/' :: name) (unique_variants url) hfail
    have h2 : (dl_image net url folder name).2 =
        (unique_variants url).flatMap (fun u => [u, u]) :=
      (congrArg Prod.snd hd).trans (pairSnd _ _)
    exact ⟨(congrArg Prod.fst hd).trans (pairFst _ _), h2,
      (congrArg List.length h2).trans
        (flatMap_pair_length (unique_variants url))⟩
  · intro k hk hprev hsucc
    have hd : dl_image net url folder name =
        (some (folder ++ '/' :: name),
          ((unique_variants url).take k).flatMap (fun u => [u, u]) ++
            (if net ((unique_variants url).get ⟨k, hk⟩) 0
             then [(unique_variants url).get ⟨k, hk⟩]
             else [(unique_variants url).get ⟨k, hk⟩,
               (unique_variants url).get ⟨k, hk⟩])) :=
      dlLoop_first_success net (folder ++ '/' :: name)
        (unique_variants url) k hk hprev hsucc
    exact ⟨(congrArg Prod.fst hd).trans (pairFst _ _),
      (congrArg Prod.snd hd).trans (pairSnd _ _)⟩

/-- Witness for C3: with a network that always fails, `dl_image` on a
concrete URL returns `none` after two attempts per unique variant; with a
network that always succeeds it returns the destination path at once. -/
theorem fetch_variant_exhaustion_witness :
    ((dl_image (fun _ _ => false) "http://h/a.png".toList "dir".toList
        "img.jpg".toList).1 = none ∧
      (dl_image (fun _ _ => false) "http://h/a.png".toList "dir".toList
        "img.jpg".toList).2.length =
        (unique_variants "http://h/a.png".toList).length * 2) ∧
    (dl_image (fun _ _ => true) "http://h/a.png".toList "dir".toList
        "img.jpg".toList).1 =
      some ("dir".toList ++ '/' :: "img.jpg".toList) := by
  have hall := (fetch_variant_exhaustion (fun _ _ => false)
    "http://h/a.png".toList "dir".toList "img.jpg".toList).1
    (fun _ _ _ => rfl)
  have hone := (fetch_variant_exhaustion (fun _ _ => true)
    "http://h/a.png".toList "dir".toList "img.jpg".toList).2 0
    (by decide) (fun j hj _ => absurd hj (Nat.not_lt_zero j)) (Or.inl rfl)
  exact ⟨⟨hall.1, hall.2.2⟩, hone.1⟩

/-! ### ArchiveBuilder: `build_cbz` and `build_epub`

A CBZ archive is modelled by its ordered list of zip entry names together
with the value interpolated into the `<PageCount>` element of the
`ComicInfo.xml` that `build_comic_info_xml` receives (`len(slices)` at the
call site).  Entry names reproduce `f"{i:04d}"` plus the slice's original
extension via `os.path.splitext`. -/

def digitChar (n : Nat) : Char := Char.ofNat (48 + n)

/-- Decimal digits of `n`, most significant first; `fuel`-bounded
division recursion (`fuel > n` always suffices). -/
def natDigitsAux : Nat → Nat → List Char
  | 0, _ => []
  | fuel + 1, n =>
    if n < 10 then [digitChar n]
    else natDigitsAux fuel (n / 10) ++ [digitChar (n % 10)]

def natDigits (n : Nat) : List Char := natDigitsAux (n + 1) n

/-- `f"{i:04d}"`: decimal digits left-padded with zeros to width 4. -/
def pad4 (i : Nat) : List Char :=
  List.replicate (4 - (natDigits i).length) '0' ++ natDigits i

/-- The zip entry names written by `build_cbz`'s image loop, starting at
index `k`. -/
def cbzNamesAux : Nat → List (List Char) → List (List Char)
  | _, [] => []
  | i, p :: ps => (pad4 i ++ (splitextL p).2) :: cbzNamesAux (i + 1) ps

/-- A built CBZ: ordered entry names (images, then `ComicInfo.xml`) and
the number written into the `PageCount` element. -/
structure CbzArchive where
  entries : List (List Char)
  comicInfoPageCount : Nat
deriving DecidableEq

/-- Model of `build_cbz(slices, ...)`: each slice is written under
`f"{i:04d}"` plus its original extension, in input order, followed by
`ComicInfo.xml` built with `page_count = len(slices)`. -/
def build_cbz (slices : List (List Char)) : CbzArchive :=
  { entries := cbzNamesAux 0 slices ++ ["ComicInfo.xml".toList]
    comicInfoPageCount := slices.length }

/-- Numeric value of the leading digit run of a name (how a reader sorts
`ComicInfo`-style numeric page names). -/
def parseLeading : List Char → Nat → Nat
  | [], acc => acc
  | c :: cs, acc =>
    if c.isDigit then parseLeading cs (acc * 10 + (c.toNat - 48)) else acc

theorem parseLeading_cons_digit (c : Char) (s : List Char) (acc : Nat)
    (h : c.isDigit = true) :
    parseLeading (c :: s) acc = parseLeading s (acc * 10 + (c.toNat - 48)) := by
  simp [parseLeading, h]

theorem parseLeading_cons_nondigit (c : Char) (s : List Char) (acc : Nat)
    (h : c.isDigit = false) :
    parseLeading (c :: s) acc = acc := by
  simp [parseLeading, h]

theorem digitChar_isDigit (n : Nat) (h : n < 10) :
    (digitChar n).isDigit = true := by
  interval_cases n <;> decide

theorem digitChar_toNat (n : Nat) (h : n < 10) :
    (digitChar n).toNat - 48 = n := by
  interval_cases n <;> decide

/-- `natDigitsAux` produces the decimal numeral of `n`: prepending it to
any suffix multiplies the accumulator by `10 ^ length` and adds `n`. -/
theorem natDigitsAux_parse :
    ∀ (fuel n : Nat), n < fuel → ∀ (rest : List Char) (acc : Nat),
      parseLeading (natDigitsAux fuel n ++ rest) acc =
        parseLeading rest (acc * 10 ^ (natDigitsAux fuel n).length + n) := by
  intro fuel
  induction fuel with
  | zero => intro n h; omega
  | succ fuel ih =>
    intro n h rest acc
    by_cases h10 : n < 10
    · simp only [natDigitsAux, if_pos h10]
      rw [List.singleton_append,
        parseLeading_cons_digit _ _ _ (digitChar_isDigit n h10),
        digitChar_toNat n h10]
      simp
    · simp only [natDigitsAux, if_neg h10]
      have hdiv : n / 10 < fuel := by omega
      rw [List.append_assoc, ih (n / 10) hdiv, List.singleton_append,
        parseLeading_cons_digit _ _ _ (digitChar_isDigit (n % 10) (by omega)),
        digitChar_toNat (n % 10) (by omega)]
      have hlen : (natDigitsAux fuel (n / 10) ++ [digitChar (n % 10)]).length
          = (natDigitsAux fuel (n / 10)).length + 1 := by simp
      rw [hlen]
      congr 1
      have : (acc * 10 ^ (natDigitsAux fuel (n / 10)).length + n / 10) * 10
          + n % 10 = acc * (10 ^ (natDigitsAux fuel (n / 10)).length * 10)
          + (n / 10 * 10 + n % 10) := by ring
      rw [this, pow_succ]
      omega

theorem parseLeading_replicate_zero :
    ∀ (k : Nat) (s : List Char), parseLeading (List.replicate k '0' ++ s) 0 =
      parseLeading s 0 := by
  intro k
  induction k with
  | zero => intro s; rfl
  | succ k ih =>
    intro s
    rw [List.replicate_succ, List.cons_append,
      parseLeading_cons_digit _ _ _ (by decide)]
    simpa using ih s

/-- Parsing the leading digits of `pad4 i` followed by a non-digit suffix
recovers `i`. -/
theorem parseLeading_pad4 (i : Nat) (rest : List Char)
    (hrest : rest = [] ∨ ∃ c t, rest = c :: t ∧ c.isDigit = false) :
    parseLeading (pad4 i ++ rest) 0 = i := by
  unfold pad4 natDigits
  rw [List.append_assoc, parseLeading_replicate_zero,
    natDigitsAux_parse (i + 1) i (by omega)]
  rcases hrest with rfl | ⟨c, t, rfl, hc⟩
  · simp [parseLeading]
  · rw [parseLeading_cons_nondigit c t _ hc]
    simp

/-- `rfindAux` either returns the running best or the (offset) index of an
occurrence of `c`. -/
theorem rfindAux_mem (c : Char) :
    ∀ (l : List Char) (i best : Int),
      rfindAux c l i best = best ∨
      ∃ j : Nat, j < l.length ∧ l.get? j = some c ∧
        rfindAux c l i best = i + j := by
  intro l
  induction l with
  | nil => intro i best; left; rfl
  | cons x xs ih =>
    intro i best
    have hstep : rfindAux c (x :: xs) i best =
        rfindAux c xs (i + 1) (if x = c then i else best) := rfl
    rcases ih (i + 1) (if x = c then i else best) with h | ⟨j, hj, hc, hr⟩
    · by_cases hx : x = c
      · right
        refine ⟨0, by simp, by simp [hx], ?_⟩
        rw [hstep, h, if_pos hx]
        simp
      · left
        rw [hstep, h, if_neg hx]
    · right
      refine ⟨j + 1, by simp; omega, by simpa using hc, ?_⟩
      rw [hstep, hr]
      push_cast
      ring

/-- The extension returned by `splitextL` is empty or starts with a dot. -/
theorem splitextL_ext_head (p : List Char) :
    (splitextL p).2 = [] ∨ ∃ t, (splitextL p).2 = '.' :: t := by
  unfold splitextL
  by_cases hg : (decide (rfindIdx '/' p < rfindIdx '.' p) &&
      ((p.take (rfindIdx '.' p).toNat).drop
        ((rfindIdx '/' p) + 1).toNat).any (fun ch => ch != '.')) = true
  · rw [if_pos hg]
    right
    have hlt : rfindIdx '/' p < rfindIdx '.' p := by
      have := (Bool.and_eq_true _ _).mp hg
      exact of_decide_eq_true this.1
    have hsep : -1 ≤ rfindIdx '/' p := by
      unfold rfindIdx
      rcases rfindAux_mem '/' p 0 (-1) with h | ⟨j, _, _, h⟩
      · rw [h]
      · rw [h]
        omega
    rcases rfindAux_mem '.' p 0 (-1) with h | ⟨j, hj, hc, h⟩
    · unfold rfindIdx at hlt hsep
      rw [h] at hlt
      omega
    · have hdot : rfindIdx '.' p = (j : Int) := by
        unfold rfindIdx
        rw [h]
        omega
      have hjlt : j < p.length := hj
      have hcj : p[j] = '.' := by
        have := List.get?_eq_some.mp hc
        rcases this with ⟨hlt', he⟩
        simpa [List.get_eq_getElem] using he
      refine ⟨p.drop (j + 1), ?_⟩
      rw [hdot]
      have : ((j : Int)).toNat = j := rfl
      rw [this, List.drop_eq_getElem_cons hjlt, hcj]
  · rw [if_neg hg]
    left
    rfl

theorem cbzNamesAux_length :
    ∀ (slices : List (List Char)) (k : Nat),
      (cbzNamesAux k slices).length = slices.length := by
  intro slices
  induction slices with
  | nil => intro k; rfl
  | cons p ps ih => intro k; simp [cbzNamesAux, ih]

theorem cbzNamesAux_get? :
    ∀ (slices : List (List Char)) (k i : Nat),
      (cbzNamesAux k slices).get? i =
        (slices.get? i).map (fun p => pad4 (k + i) ++ (splitextL p).2) := by
  intro slices
  induction slices with
  | nil => intro k i; cases i <;> rfl
  | cons p ps ih =>
    intro k i
    match i with
    | 0 => simp [cbzNamesAux]
    | i + 1 =>
      have := ih (k + 1) i
      simpa [cbzNamesAux, Nat.add_assoc, Nat.add_comm 1 i] using this

/-- The types carried by `ContentItem` dictionaries that the EPUB page
loop distinguishes: `image`, `xhtml`, and everything else (skipped). -/
inductive EItemType where
  | image
  | xhtml
  | other
deriving DecidableEq

structure EItem where
  ty : EItemType
  path : List Char
deriving DecidableEq

/-- One `<itemref>` of the EPUB spine: the cover page, an image wrapper
page (`page_{page_index}`), or a copied text document
(`text_{text_counter}`). -/
inductive SpineRef where
  | cover
  | page (idx : Nat)
  | text (idx : Nat)
deriving DecidableEq

/-- The content-pages loop of `build_epub`: images append
`<itemref idref="page_{len(page_docs)}"/>`, xhtml items append
`<itemref idref="text_{text_counter}"/>`, both grow `page_docs`, and any
other item type is skipped.  Arguments: remaining items, `text_counter`,
`len(page_docs)`. -/
def epubSpineAux : List EItem → Nat → Nat → List SpineRef
  | [], _, _ => []
  | it :: rest, tc, pd =>
    match it.ty with
    | .image => .page pd :: epubSpineAux rest tc (pd + 1)
    | .xhtml => .text tc :: epubSpineAux rest (tc + 1) (pd + 1)
    | .other => epubSpineAux rest tc pd

/-- The spine of `build_epub`: an optional cover itemref followed by the
itemrefs of the content loop. -/
def build_epub_spine (hasCover : Bool) (items : List EItem) : List SpineRef :=
  (if hasCover then [.cover] else []) ++ epubSpineAux items 0 0

def isContentItem (it : EItem) : Bool :=
  match it.ty with
  | .image => true
  | .xhtml => true
  | .other => false

def isXhtmlItem (it : EItem) : Bool :=
  match it.ty with
  | .xhtml => true
  | _ => false

/-- Spec-side spine of a list that contains only image/xhtml items: one
itemref per item, in order. -/
def epubSpineRel : List EItem → Nat → Nat → List SpineRef
  | [], _, _ => []
  | it :: rest, pd, tc =>
    match it.ty with
    | .image => .page pd :: epubSpineRel rest (pd + 1) tc
    | .xhtml => .text tc :: epubSpineRel rest (pd + 1) (tc + 1)
    | .other => epubSpineRel rest pd tc

/-- The built spine equals the spec-side spine of the filtered item list:
non-content items contribute nothing, and each image/xhtml item
contributes exactly one itemref in input order. -/
theorem epubSpineAux_eq_rel :
    ∀ (items : List EItem) (tc pd : Nat),
      epubSpineAux items tc pd =
        epubSpineRel (items.filter isContentItem) pd tc := by
  intro items
  induction items with
  | nil => intro tc pd; rfl
  | cons it rest ih =>
    intro tc pd
    match hty : it.ty with
    | .image =>
      have hf : isContentItem it = true := by simp [isContentItem, hty]
      simp [epubSpineAux, hty, List.filter_cons, hf, epubSpineRel, ih]
    | .xhtml =>
      have hf : isContentItem it = true := by simp [isContentItem, hty]
      simp [epubSpineAux, hty, List.filter_cons, hf, epubSpineRel, ih]
    | .other =>
      have hf : isContentItem it = false := by simp [isContentItem, hty]
      simp [epubSpineAux, hty, List.filter_cons, hf, ih]

theorem epubSpineRel_length :
    ∀ (rel : List EItem) (pd tc : Nat),
      (∀ it ∈ rel, isContentItem it = true) →
      (epubSpineRel rel pd tc).length = rel.length := by
  intro rel
  induction rel with
  | nil => intro pd tc _; rfl
  | cons it rest ih =>
    intro pd tc hall
    have hrest := fun i hi => hall i (List.mem_cons_of_mem _ hi)
    match hty : it.ty with
    | .image => simp [epubSpineRel, hty, ih _ _ hrest]
    | .xhtml => simp [epubSpineRel, hty, ih _ _ hrest]
    | .other =>
      have := hall it (by simp)
      simp [isContentItem, hty] at this

/-- The `k`-th spine itemref of an all-content list: `page (pd + k)` for
an image, `text` of the number of earlier xhtml items for a text
document. -/
theorem epubSpineRel_get? :
    ∀ (rel : List EItem) (pd tc k : Nat) (it : EItem),
      (∀ i ∈ rel, isContentItem i = true) →
      rel.get? k = some it →
      ((it.ty = .image →
          (epubSpineRel rel pd tc).get? k = some (.page (pd + k))) ∧
        (it.ty = .xhtml →
          (epubSpineRel rel pd tc).get? k =
            some (.text (tc + ((rel.take k).filter isXhtmlItem).length)))) := by
  intro rel
  induction rel with
  | nil => intro pd tc k it _ hg; cases hg
  | cons it0 rest ih =>
    intro pd tc k it hall hg
    have hrest := fun i hi => hall i (List.mem_cons_of_mem _ hi)
    match k with
    | 0 =>
      rw [List.get?_cons_zero] at hg
      cases hg
      constructor
      · intro hty
        simp [epubSpineRel, hty]
      · intro hty
        simp [epubSpineRel, hty]
    | k + 1 =>
      rw [List.get?_cons_succ] at hg
      match hty0 : it0.ty with
      | .image =>
        have := ih (pd + 1) tc k it hrest hg
        constructor
        · intro hty
          simpa [epubSpineRel, hty0, Nat.add_assoc, Nat.add_comm 1 k]
            using this.1 hty
        · intro hty
          have hx : isXhtmlItem it0 = false := by simp [isXhtmlItem, hty0]
          simpa [epubSpineRel, hty0, List.filter_cons, hx]
            using this.2 hty
      | .xhtml =>
        have := ih (pd + 1) (tc + 1) k it hrest hg
        constructor
        · intro hty
          simpa [epubSpineRel, hty0, Nat.add_assoc, Nat.add_comm 1 k]
            using this.1 hty
        · intro hty
          have hx : isXhtmlItem it0 = true := by simp [isXhtmlItem, hty0]
          have h2 := this.2 hty
          simp only [epubSpineRel, hty0, List.get?_cons_succ,
            List.take_succ_cons, List.filter_cons, hx]
          rw [h2]
          congr 2
          simp only [if_true, List.length_cons]
          omega
      | .other =>
        have := hall it0 (by simp)
        simp [isContentItem, hty0] at this

/-- C9: archive output order equals input order.  `build_cbz` writes the
`i`-th image under the zero-padded 4-digit name formed from `i` plus the
image's original extension, so the numeric values of the zip entry names
strictly ascend in input order; and `build_epub` emits one spine itemref
per image/xhtml item, in the same relative order as those items appear in
the input list (`page k` for the `k`-th content item when it is an image,
`text` of the number of earlier xhtml items otherwise). -/
theorem archive_order_preservation :
    (∀ (slices : List (List Char)) (i : Nat) (p : List Char),
        slices.get? i = some p →
        (build_cbz slices).entries.get? i =
          some (pad4 i ++ (splitextL p).2)) ∧
    (∀ (slices : List (List Char)) (i j : Nat) (e f : List Char),
        i < j → j < slices.length →
        (build_cbz slices).entries.get? i = some e →
        (build_cbz slices).entries.get? j = some f →
        parseLeading e 0 < parseLeading f 0) ∧
    (∀ (hasCover : Bool) (items : List EItem),
        build_epub_spine hasCover items =
          (if hasCover then [SpineRef.cover] else []) ++
            epubSpineRel (items.filter isContentItem) 0 0) ∧
    (∀ (items : List EItem) (k : Nat) (it : EItem),
        (items.filter isContentItem).get? k = some it →
        (it.ty = .image →
          (epubSpineAux items 0 0).get? k = some (.page k)) ∧
        (it.ty = .xhtml →
          (epubSpineAux items 0 0).get? k = some (.text
            (((items.filter isContentItem).take k).filter
              isXhtmlItem).length))) := by
  have centry : ∀ (slices : List (List Char)) (i : Nat) (p : List Char),
      slices.get? i = some p →
      (build_cbz slices).entries.get? i =
        some (pad4 i ++ (splitextL p).2) := by
    intro slices i p hp
    have hi : i < slices.length := by
      by_contra hge
      rw [List.get?_eq_none.mpr (by omega)] at hp
      cases hp
    have hlen : i < (cbzNamesAux 0 slices).length := by
      rw [cbzNamesAux_length]; exact hi
    unfold build_cbz
    rw [List.get?_append hlen, cbzNamesAux_get?, hp]
    simp
  have cparse : ∀ (p : List Char) (i : Nat),
      parseLeading (pad4 i ++ (splitextL p).2) 0 = i := by
    intro p i
    apply parseLeading_pad4
    rcases splitextL_ext_head p with h | ⟨t, h⟩
    · exact Or.inl h
    · exact Or.inr ⟨'.', t, h, by decide⟩
  refine ⟨centry, ?_, ?_, ?_⟩
  · intro slices i j e f hij hj he hf
    have hi : i < slices.length := lt_trans hij hj
    obtain ⟨p, hp⟩ : ∃ p, slices.get? i = some p :=
      ⟨slices.get ⟨i, hi⟩, List.get?_eq_get hi⟩
    obtain ⟨q, hq⟩ : ∃ q, slices.get? j = some q :=
      ⟨slices.get ⟨j, hj⟩, List.get?_eq_get hj⟩
    have he2 := centry slices i p hp
    have hf2 := centry slices j q hq
    rw [he] at he2
    rw [hf] at hf2
    cases he2
    cases hf2
    rw [cparse p i, cparse q j]
    exact hij
  · intro hasCover items
    unfold build_epub_spine
    rw [epubSpineAux_eq_rel]
  · intro items k it hg
    have hall : ∀ i ∈ items.filter isContentItem, isContentItem i = true :=
      fun i hi => List.of_mem_filter hi
    have := epubSpineRel_get? (items.filter isContentItem) 0 0 k it hall hg
    rw [epubSpineAux_eq_rel]
    constructor
    · intro hty
      simpa using this.1 hty
    · intro hty
      simpa using this.2 hty

/-- Witness for C9 at concrete inputs: two slices `a.png`, `b.jpg` and an
item list image/other/xhtml. -/
theorem archive_order_preservation_witness :
    (build_cbz ["a.png".toList, "b.jpg".toList]).entries.get? 0 =
      some (pad4 0 ++ (splitextL "a.png".toList).2) ∧
    parseLeading "0000.png".toList 0 < parseLeading "0001.jpg".toList 0 ∧
    build_epub_spine true
        [⟨.image, "x.jpg".toList⟩, ⟨.other, "t.pdf".toList⟩,
          ⟨.xhtml, "c.xhtml".toList⟩] =
      [SpineRef.cover] ++
        epubSpineRel
          ([⟨.image, "x.jpg".toList⟩, ⟨.other, "t.pdf".toList⟩,
            ⟨.xhtml, "c.xhtml".toList⟩].filter isContentItem) 0 0 ∧
    (epubSpineAux
        [⟨.image, "x.jpg".toList⟩, ⟨.other, "t.pdf".toList⟩,
          ⟨.xhtml, "c.xhtml".toList⟩] 0 0).get? 1 =
      some (.text 0) := by
  refine ⟨?_, ?_, ?_, ?_⟩
  · exact archive_order_preservation.1 ["a.png".toList, "b.jpg".toList] 0
      "a.png".toList (by decide)
  · have := archive_order_preservation.2.1 ["a.png".toList, "b.jpg".toList]
      0 1 "0000.png".toList "0001.jpg".toList (by decide) (by decide)
      (by decide) (by decide)
    exact this
  · exact archive_order_preservation.2.2.1 true _
  · have := (archive_order_preservation.2.2.2
      [⟨.image, "x.jpg".toList⟩, ⟨.other, "t.pdf".toList⟩,
        ⟨.xhtml, "c.xhtml".toList⟩] 1 ⟨.xhtml, "c.xhtml".toList⟩
      (by decide)).2 rfl
    simpa using this

set_option maxRecDepth 100000 in
/-- C2: on three raw images of heights 500, 800 and 300 at width 1000
(already equal to the target width, so no resizing occurs) with
`target_height = 900`, the compositor yields exactly two pages — rows
0‑899 (image 1 plus the top 400 rows of image 2) and rows 900‑1599 (the
remaining 400 rows of image 2 plus image 3); and `build_cbz` over two
page files writes two image entries plus `ComicInfo.xml`, with the
`PageCount` element equal to 2, the number of image entries. -/
theorem cbz_roundtrip_scenario :
    process_chapter_images 12
        [List.range' 0 500, List.range' 500 800, List.range' 1300 300]
        1000 900 =
      some [List.range' 0 900, List.range' 900 700] ∧
    (build_cbz ["p_1_001.jpg".toList,
        "p_1_002.jpg".toList]).comicInfoPageCount = 2 ∧
    (build_cbz ["p_1_001.jpg".toList, "p_1_002.jpg".toList]).entries =
      ["0000.jpg".toList, "0001.jpg".toList, "ComicInfo.xml".toList] := by
  refine ⟨?_, ?_, ?_⟩
  · decide
  · decide
  · decide

/-! ### ScaleRecombiner: `recombine_scaled_images`

All scaled pages at a call site share one width (they are scaled from
uniform-width composited pages by one factor); the shared width is the
`w` parameter (`strip_width = scaled_images[0].width` in the source). -/

/-- One iteration of the recombine loop: flush the buffer as a stitched
strip when adding the page would exceed `recombine_height` and the buffer
is non-empty, else append the page to the buffer. -/
def recombineStep {α : Type} (recombine_height w : Int)
    (acc : List (List α) × List (List α) × Int) (img : List α) :
    List (List α) × List (List α) × Int :=
  let strips := acc.1
  let buffer := acc.2.1
  let bh := acc.2.2
  if recombine_height < bh + imgH img ∧ buffer.isEmpty = false then
    match combine_images buffer w with
    | some strip => (strips ++ [strip], [img], imgH img)
    | none => (strips, [img], imgH img)
  else (strips, buffer ++ [img], bh + imgH img)

/-- The final flush of `recombine_scaled_images`: stitch any non-empty
remaining buffer into one last strip. -/
def recombineFinish {α : Type} (w : Int)
    (r : List (List α) × List (List α) × Int) : List (List α) :=
  match combine_images r.2.1 w with
  | some strip => r.1 ++ [strip]
  | none => r.1

/-- Model of `recombine_scaled_images(scaled_images, recombine_height)`:
the buffer loop over all pages, then the final flush of a non-empty
buffer. -/
def recombine_scaled_images {α : Type} (scaled : List (List α))
    (recombine_height w : Int) : List (List α) :=
  match scaled with
  | [] => []
  | _ :: _ =>
    recombineFinish w
      (scaled.foldl (recombineStep recombine_height w) ([], [], 0))

/-- Spec-side greedy chunking of the claim: partition the pages into
contiguous runs, closing a run exactly when adding the next page would
make its height exceed `recombine_height` while the run is non-empty. -/
def chunkStep {α : Type} (rh : Int)
    (acc : List (List (List α)) × List (List α) × Int) (img : List α) :
    List (List (List α)) × List (List α) × Int :=
  let runs := acc.1
  let cur := acc.2.1
  let bh := acc.2.2
  if rh < bh + imgH img ∧ cur.isEmpty = false then
    (runs ++ [cur], [img], imgH img)
  else (runs, cur ++ [img], bh + imgH img)

def chunkFinish {α : Type} (r : List (List (List α)) × List (List α) × Int) :
    List (List (List α)) :=
  if r.2.1.isEmpty then r.1 else r.1 ++ [r.2.1]

def chunkRuns {α : Type} (rh : Int) (scaled : List (List α)) :
    List (List (List α)) :=
  chunkFinish (scaled.foldl (chunkStep rh) ([], [], 0))

theorem chunk_foldl_inv {α : Type} (rh : Int) :
    ∀ (l : List (List α)) (runs : List (List (List α)))
      (cur : List (List α)) (bh : Int),
      (l.foldl (chunkStep rh) (runs, cur, bh)).1.flatten ++
          (l.foldl (chunkStep rh) (runs, cur, bh)).2.1 =
        runs.flatten ++ cur ++ l := by
  intro l
  induction l with
  | nil => intro runs cur bh; simp
  | cons img rest ih =>
    intro runs cur bh
    rw [List.foldl_cons]
    by_cases hc : rh < bh + imgH img ∧ cur.isEmpty = false
    · have hstep : chunkStep rh (runs, cur, bh) img =
          (runs ++ [cur], [img], imgH img) := by
        simp [chunkStep, hc]
      rw [hstep, ih]
      simp
    · have hstep : chunkStep rh (runs, cur, bh) img =
          (runs, cur ++ [img], bh + imgH img) := by
        simp only [chunkStep, if_neg hc]
      rw [hstep, ih]
      simp

theorem fragsH_pos_of_nonempty {α : Type} (frags : List (List α))
    (hne : frags ≠ []) (hall : ∀ p ∈ frags, p ≠ []) :
    0 < fragsH frags := by
  match frags with
  | [] => exact absurd rfl hne
  | f :: fs =>
    have h1 : 0 < imgH f := by
      have := hall f (by simp)
      simp only [imgH]
      exact_mod_cast List.length_pos.mpr this
    have h2 : fragsH (f :: fs) = imgH f + fragsH fs := by simp [fragsH, imgH]
    have := fragsH_nonneg fs
    omega

theorem recombine_foldl_commute {α : Type} (rh w : Int) (hw : 0 < w) :
    ∀ (l : List (List α)) (runs : List (List (List α)))
      (cur : List (List α)) (bh : Int),
      (∀ p ∈ l, p ≠ []) → (∀ p ∈ cur, p ≠ []) →
      l.foldl (recombineStep rh w) (runs.map List.flatten, cur, bh) =
        ((l.foldl (chunkStep rh) (runs, cur, bh)).1.map List.flatten,
          (l.foldl (chunkStep rh) (runs, cur, bh)).2.1,
          (l.foldl (chunkStep rh) (runs, cur, bh)).2.2) ∧
      (∀ p ∈ (l.foldl (chunkStep rh) (runs, cur, bh)).2.1, p ≠ []) := by
  intro l
  induction l with
  | nil =>
    intro runs cur bh _ hcur
    exact ⟨rfl, hcur⟩
  | cons img rest ih =>
    intro runs cur bh hl hcur
    have himg : img ≠ [] := hl img (by simp)
    have hrest : ∀ p ∈ rest, p ≠ [] := fun p hp => hl p (by simp [hp])
    rw [List.foldl_cons, List.foldl_cons]
    by_cases hc : rh < bh + imgH img ∧ cur.isEmpty = false
    · have hcne : cur ≠ [] := by
        intro he
        rw [he] at hc
        simp at hc
      have hpos : 0 < fragsH cur := fragsH_pos_of_nonempty cur hcne hcur
      have hcomb := combine_images_of_pos cur w hw hpos
      have hstep1 : recombineStep rh w (runs.map List.flatten, cur, bh) img =
          ((runs ++ [cur]).map List.flatten, [img], imgH img) := by
        simp [recombineStep, hc, hcomb]
      have hstep2 : chunkStep rh (runs, cur, bh) img =
          (runs ++ [cur], [img], imgH img) := by
        simp [chunkStep, hc]
      rw [hstep1, hstep2]
      exact ih (runs ++ [cur]) [img] (imgH img) hrest
        (by intro p hp; rw [List.mem_singleton] at hp; exact hp ▸ himg)
    · have hstep1 : recombineStep rh w (runs.map List.flatten, cur, bh) img =
          (runs.map List.flatten, cur ++ [img], bh + imgH img) := by
        simp only [recombineStep, if_neg hc]
      have hstep2 : chunkStep rh (runs, cur, bh) img =
          (runs, cur ++ [img], bh + imgH img) := by
        simp only [chunkStep, if_neg hc]
      rw [hstep1, hstep2]
      refine ih runs (cur ++ [img]) (bh + imgH img) hrest ?_
      intro p hp
      rcases List.mem_append.mp hp with h | h
      · exact hcur p h
      · rw [List.mem_singleton] at h
        exact h ▸ himg

/-- C8: with the shared positive strip width and non-degenerate pages,
`recombine_scaled_images` equals the vertical concatenations of the
greedy contiguous partition of the input pages (a run is closed exactly
when adding the next page would exceed `recombine_height` with a
non-empty buffer; the overflowing page starts the next run; the remainder
is flushed at the end), and that partition concatenates back to the
input pages in order. -/
theorem recombineFinish_eq_chunkFinish {α : Type} (w : Int) (hw : 0 < w)
    (r : List (List (List α)) × List (List α) × Int)
    (hcur : ∀ p ∈ r.2.1, p ≠ []) :
    recombineFinish w (r.1.map List.flatten, r.2.1, r.2.2) =
      (chunkFinish r).map List.flatten := by
  match hc : r.2.1 with
  | [] =>
    unfold recombineFinish chunkFinish
    rw [hc]
    simp [combine_images]
  | c :: cs =>
    have hcur' : ∀ p ∈ c :: cs, p ≠ [] := hc ▸ hcur
    have hp : 0 < fragsH (c :: cs) :=
      fragsH_pos_of_nonempty _ (by simp) hcur'
    unfold recombineFinish chunkFinish
    rw [hc]
    dsimp only
    rw [combine_images_of_pos _ w hw hp]
    simp

/-- C8: with the shared positive strip width and non-degenerate pages,
`recombine_scaled_images` equals the vertical concatenations of the
greedy contiguous partition of the input pages (a run is closed exactly
when adding the next page would exceed `recombine_height` with a
non-empty buffer; the overflowing page starts the next run; the remainder
is flushed at the end), and that partition concatenates back to the
input pages in order. -/
theorem recombine_partition {α : Type} (rh w : Int) (hw : 0 < w)
    (scaled : List (List α)) (hpos : ∀ p ∈ scaled, p ≠ []) :
    recombine_scaled_images scaled rh w =
      (chunkRuns rh scaled).map List.flatten ∧
    (chunkRuns rh scaled).flatten = scaled := by
  have hinv := chunk_foldl_inv rh scaled [] [] 0
  have hflat : (chunkRuns rh scaled).flatten = scaled := by
    unfold chunkRuns chunkFinish
    by_cases hce : (scaled.foldl (chunkStep rh) ([], [], 0)).2.1.isEmpty
        = true
    · have he : (scaled.foldl (chunkStep rh) ([], [], 0)).2.1 = [] :=
        List.isEmpty_iff.mp hce
      rw [if_pos hce]
      rw [he] at hinv
      simpa using hinv
    · rw [if_neg hce, List.flatten_append]
      simpa using hinv
  refine ⟨?_, hflat⟩
  rcases scaled with _ | ⟨s, ss⟩
  · rfl
  · have hmain := recombine_foldl_commute rh w hw (s :: ss) [] [] 0 hpos
      (by simp)
    have h1' : (s :: ss).foldl (recombineStep rh w) ([], [], 0) =
        (((s :: ss).foldl (chunkStep rh) ([], [], 0)).1.map List.flatten,
          ((s :: ss).foldl (chunkStep rh) ([], [], 0)).2.1,
          ((s :: ss).foldl (chunkStep rh) ([], [], 0)).2.2) := by
      simpa using hmain.1
    have hr : recombine_scaled_images (s :: ss) rh w =
        recombineFinish w
          ((s :: ss).foldl (recombineStep rh w) ([], [], 0)) := rfl
    rw [hr, h1']
    exact recombineFinish_eq_chunkFinish w hw _ hmain.2

/-- Witness for C8: pages of heights 2, 2 and 1 with
`recombine_height = 3` produce strips `[rows 0-1]` and `[rows 2-4]`. -/
theorem recombine_partition_witness :
    recombine_scaled_images [[0, 1], [2, 3], [4]] 3 5 =
      (chunkRuns 3 [[0, 1], [2, 3], [4]]).map List.flatten ∧
    (chunkRuns 3 [[0, 1], [2, 3], [4]]).flatten = [[0, 1], [2, 3], [4]] :=
  recombine_partition 3 5 (by decide) [[0, 1], [2, 3], [4]] (by decide)

/-! ### Chapter version selection: `select_best_chapter_version`
(`sites/base.py`)

A chapter version is its identity (`vid`, standing for the version
dictionary), the scan group reported by `get_group_name` (`none` in the
base handler, a string in site handlers), and its `up_count` (defaulting
to 0 via `.get`).  `max(versions, key=upvotes)` returns the first version
with the maximal upvote count, as Python's `max` does. -/

structure ChVersion where
  vid : Nat
  group : Option String
  up : Int
deriving DecidableEq

/-- Python `max(best :: rest, key=upvotes)`: keep the current best unless
a later element is strictly greater. -/
def maxByUp : ChVersion → List ChVersion → ChVersion
  | best, [] => best
  | best, v :: rest => maxByUp (if best.up < v.up then v else best) rest

/-- `get_group_name(v) in preferred_groups` (a `None` group never matches
a string list). -/
def groupIn (v : ChVersion) (pgs : List String) : Bool :=
  match v.group with
  | none => false
  | some g => pgs.contains g

/-- The priority loop of `select_best_chapter_version`: first preferred
group with any candidate wins; within it, the best-upvoted candidate. -/
def prioLoop : List String → List ChVersion → ChVersion → Option ChVersion
  | [], _, fallback => some fallback
  | g :: gs, versions, fallback =>
    match versions.filter (fun v => v.group = some g) with
    | [] => prioLoop gs versions fallback
    | c :: cs => some (maxByUp c cs)

/-- Model of `select_best_chapter_version(versions, preferred_groups,
mix_by_upvote)`. -/
def select_best_chapter_version (versions : List ChVersion)
    (preferred_groups : List String) (mix_by_upvote : Bool) :
    Option ChVersion :=
  match versions with
  | [] => none
  | v0 :: rest =>
    let best_by_upvote := maxByUp v0 rest
    if preferred_groups = [] then some best_by_upvote
    else if mix_by_upvote then
      match (v0 :: rest).filter (fun v => groupIn v preferred_groups) with
      | [] => some best_by_upvote
      | p :: ps => some (maxByUp p ps)
    else
      prioLoop preferred_groups (v0 :: rest) best_by_upvote

theorem maxByUp_mem : ∀ (rest : List ChVersion) (best : ChVersion),
    maxByUp best rest = best ∨ maxByUp best rest ∈ rest := by
  intro rest
  induction rest with
  | nil => intro best; left; rfl
  | cons v vs ih =>
    intro best
    rw [maxByUp]
    rcases ih (if best.up < v.up then v else best) with h | h
    · rw [h]
      by_cases hc : best.up < v.up
      · right
        simp [hc]
      · left
        simp [hc]
    · right
      simp [h]

/-- Counterexample to C5 as stated: with `mix_by_upvote = True` and
preferred groups `["A"]`, two version lists that differ only in upvote
counts (same identities and groups) select different winners, and neither
winner's group is in the preferred-group list — the winner moved entirely
outside the preferred subset, because when no version belongs to a
preferred group the code falls back to the global best-by-upvote. -/
theorem selection_upvote_counterexample :
    select_best_chapter_version
        [⟨0, some "B", 1⟩, ⟨1, some "C", 0⟩] ["A"] true =
      some ⟨0, some "B", 1⟩ ∧
    select_best_chapter_version
        [⟨0, some "B", 0⟩, ⟨1, some "C", 1⟩] ["A"] true =
      some ⟨1, some "C", 1⟩ ∧
    ([⟨0, some "B", 1⟩, ⟨1, some "C", 0⟩] : List ChVersion).map
        (fun v => (v.vid, v.group)) =
      ([⟨0, some "B", 0⟩, ⟨1, some "C", 1⟩] : List ChVersion).map
        (fun v => (v.vid, v.group)) ∧
    (⟨0, some "B", 1⟩ : ChVersion) ≠ ⟨1, some "C", 1⟩ ∧
    groupIn ⟨0, some "B", 1⟩ ["A"] = false ∧
    groupIn ⟨1, some "C", 1⟩ ["A"] = false := by
  decide

theorem select_mix_mem_preferred (versions : List ChVersion)
    (pgs : List String) (hne : pgs ≠ [])
    (hex : ∃ v ∈ versions, groupIn v pgs = true) :
    ∀ w, select_best_chapter_version versions pgs true = some w →
      groupIn w pgs = true := by
  intro w hw
  match versions, hex with
  | v0 :: rest, hex =>
    simp only [select_best_chapter_version, if_neg hne, if_pos rfl] at hw
    match hf : (v0 :: rest).filter (fun v => groupIn v pgs) with
    | [] =>
      obtain ⟨v, hv, hg⟩ := hex
      have := List.filter_eq_nil.mp hf v hv
      rw [hg] at this
      simp at this
    | p :: ps =>
      rw [hf] at hw
      cases hw
      have hmem : maxByUp p ps ∈ p :: ps := by
        rcases maxByUp_mem ps p with h | h
        · rw [h]; simp
        · simp [h]
      rw [← hf] at hmem
      have hres := List.of_mem_filter hmem
      simpa using hres

/-- C5 (amended): `select_best_chapter_version` is a pure function of its
arguments (two invocations on the same pool, preferred groups and flag
return the same version), and with `mix_by_upvote = True`, for two
version lists that differ only in upvote counts, the winner stays within
the subset of versions whose group is preferred — provided the
preferred-group list is non-empty and at least one version belongs to a
preferred group; otherwise the code falls back to the globally
best-upvoted version, which upvote changes can move freely. -/
theorem selection_determinism_and_confinement :
    (∀ (versions : List ChVersion) (pgs : List String) (mix : Bool),
        select_best_chapter_version versions pgs mix =
          select_best_chapter_version versions pgs mix) ∧
    (∀ (vs1 vs2 : List ChVersion) (pgs : List String),
        pgs ≠ [] →
        vs1.map (fun v => (v.vid, v.group)) =
          vs2.map (fun v => (v.vid, v.group)) →
        (∃ v ∈ vs1, groupIn v pgs = true) →
        ∀ w1 w2, select_best_chapter_version vs1 pgs true = some w1 →
          select_best_chapter_version vs2 pgs true = some w2 →
          groupIn w1 pgs = true ∧ groupIn w2 pgs = true) := by
  refine ⟨fun _ _ _ => rfl, ?_⟩
  intro vs1 vs2 pgs hne hmap hex w1 w2 hw1 hw2
  have hex2 : ∃ v ∈ vs2, groupIn v pgs = true := by
    obtain ⟨v, hv, hg⟩ := hex
    have hmem : (v.vid, v.group) ∈ vs2.map (fun v => (v.vid, v.group)) := by
      rw [← hmap]
      exact List.mem_map_of_mem _ hv
    obtain ⟨v2, hv2, he⟩ := List.mem_map.mp hmem
    refine ⟨v2, hv2, ?_⟩
    have : v2.group = v.group := (Prod.mk.injEq _ _ _ _).mp he |>.2
    unfold groupIn at hg ⊢
    rw [this]
    exact hg
  exact ⟨select_mix_mem_preferred vs1 pgs hne hex w1 hw1,
    select_mix_mem_preferred vs2 pgs hne hex2 w2 hw2⟩

/-- Witness for the amended C5 at concrete inputs: both winners carry the
preferred group `A`. -/
theorem selection_determinism_and_confinement_witness :
    groupIn ⟨0, some "A", 0⟩ ["A"] = true ∧
    groupIn ⟨0, some "A", 7⟩ ["A"] = true :=
  selection_determinism_and_confinement.2
    [⟨0, some "A", 0⟩, ⟨1, some "B", 5⟩]
    [⟨0, some "A", 7⟩, ⟨1, some "B", 1⟩] ["A"]
    (by decide) (by decide) ⟨⟨0, some "A", 0⟩, by decide, by decide⟩
    ⟨0, some "A", 0⟩ ⟨0, some "A", 7⟩ (by decide) (by decide)

/-! ### RunController: resume startup check and per-chapter resume

`get_processing_params` collects every option that affects
downloaded/processed bytes; resume mode requires the persisted JSON to
compare equal (Python `==` on the dict, i.e. structural equality). -/

structure ProcessingParams where
  width : Int
  aspect_ratio : Option String
  quality : Int
  scaling : Int
  chapters : String
  group : List String
  mix_by_upvote : Bool
  no_partials : Bool
  no_processing : Bool
deriving DecidableEq

/-- The state of `run_params.json` on startup: absent, unreadable
(`json.JSONDecodeError`/`TypeError`), or parsed to parameters. -/
inductive PersistedParams where
  | missing
  | unreadable
  | parsed (p : ProcessingParams)
deriving DecidableEq

/-- Effects of the startup block (lines 1650-1682 of
`comick_downloader.py`): whether resume mode was entered, whether the old
temp directory was deleted, and whether a fresh directory was created and
the current parameters written. -/
structure StartupResult where
  resume_mode : Bool
  removed_old_tmp : Bool
  wrote_params : Bool
deriving DecidableEq

/-- Model of the startup resume check.  The `Except` layer records that
this block has no abort path (`sys.exit` never occurs in it): every input
yields `.ok`. -/
def startup_resume_check (tmp_exists : Bool) (persisted : PersistedParams)
    (current : ProcessingParams) : Except String StartupResult :=
  let rr : Bool × Bool :=
    if tmp_exists then
      match persisted with
      | .parsed old => if old = current then (true, false) else (false, true)
      | .unreadable => (false, true)
      | .missing => (false, true)
    else (false, false)
  .ok { resume_mode := rr.1, removed_old_tmp := rr.2,
        wrote_params := !rr.1 }

/-- C7: with an existing temp directory whose persisted parameters are
unreadable or structurally differ from the current run's, the run never
aborts: the old temp directory is deleted, a fresh one is created with
the current parameters written, and resume mode is not entered; resume
mode is entered exactly when the persisted parameters parse and equal the
current ones. -/
theorem resume_corruption_clean_restart :
    (∀ (persisted : PersistedParams) (current : ProcessingParams),
        (persisted = .unreadable ∨
          ∃ old, persisted = .parsed old ∧ old ≠ current) →
        startup_resume_check true persisted current =
          .ok ⟨false, true, true⟩) ∧
    (∀ (tmp_exists : Bool) (persisted : PersistedParams)
        (current : ProcessingParams) (r : StartupResult),
        startup_resume_check tmp_exists persisted current = .ok r →
        (r.resume_mode = true ↔
          tmp_exists = true ∧ persisted = .parsed current)) ∧
    (∀ (tmp_exists : Bool) (persisted : PersistedParams)
        (current : ProcessingParams),
        ∃ r, startup_resume_check tmp_exists persisted current = .ok r ∧
          r.wrote_params = !r.resume_mode) := by
  refine ⟨?_, ?_, ?_⟩
  · intro persisted current h
    rcases h with rfl | ⟨old, rfl, hne⟩
    · rfl
    · simp [startup_resume_check, if_neg hne]
  · intro tmp_exists persisted current r hr
    match tmp_exists, persisted with
    | false, pp =>
      cases hr
      simp
    | true, .missing =>
      cases hr
      simp
    | true, .unreadable =>
      cases hr
      simp
    | true, .parsed old =>
      by_cases he : old = current
      · subst he
        simp [startup_resume_check] at hr
        cases hr
        simp
      · have hval : startup_resume_check true (.parsed old) current =
            .ok ⟨false, true, true⟩ := by
          simp [startup_resume_check, if_neg he]
        rw [hval] at hr
        injection hr with hr'
        subst hr'
        constructor
        · intro h
          exact absurd h (by decide)
        · rintro ⟨-, hp⟩
          injection hp with hp'
          exact absurd hp' he
  · intro tmp_exists persisted current
    exact ⟨_, rfl, rfl⟩

/-- Witness for C7: a concrete mismatch (different width) triggers the
clean restart, and a concrete match enters resume mode. -/
theorem resume_corruption_clean_restart_witness :
    startup_resume_check true
        (.parsed ⟨800, none, 85, 100, "all", [], false, false, false⟩)
        ⟨1000, none, 85, 100, "all", [], false, false, false⟩ =
      .ok ⟨false, true, true⟩ ∧
    ((StartupResult.mk true false false).resume_mode = true ↔
      true = true ∧
        (PersistedParams.parsed
            ⟨800, none, 85, 100, "all", [], false, false, false⟩) =
          .parsed ⟨800, none, 85, 100, "all", [], false, false, false⟩) := by
  constructor
  · exact resume_corruption_clean_restart.1 _ _
      (Or.inr ⟨⟨800, none, 85, 100, "all", [], false, false, false⟩, rfl,
        by simp⟩)
  · exact resume_corruption_clean_restart.2.1 true
      (.parsed ⟨800, none, 85, 100, "all", [], false, false, false⟩)
      ⟨800, none, 85, 100, "all", [], false, false, false⟩
      ⟨true, false, false⟩ (by rfl)

/-- The `--format` choices: `pdf`, `epub`, `cbz`, or `none` (modelled as
`fnone`). -/
inductive OutFormat where
  | pdf
  | epub
  | cbz
  | fnone
deriving DecidableEq

/-- What the chapter loop does with a chapter on resume: collect and
reuse the existing processed files without re-downloading, or clean the
chapter directory and re-download/re-process it. -/
inductive ResumeAction where
  | reuse (files : List String)
  | reprocess
deriving DecidableEq

/-- Model of the per-chapter resume decision (lines 1724-1769 of
`comick_downloader.py`): with resume mode on and the chapter's marker
file present, formats `epub`, `pdf` and `none` are re-processed ("Resume
mode not supported for this format"); otherwise the globbed processed
images are reused when non-empty, and the chapter is re-processed when
none are found.  Without resume mode or marker the chapter is always
(re-)downloaded. -/
def chapter_resume_action (resume_mode marker_exists : Bool)
    (fmt : OutFormat) (source_images : List String) : ResumeAction :=
  if resume_mode ∧ marker_exists then
    if fmt = .epub ∨ fmt = .pdf ∨ fmt = .fnone then .reprocess
    else
      match source_images with
      | [] => .reprocess
      | imgs => .reuse imgs
  else .reprocess

/-- Counterexample to C4 as stated: in resume mode with the marker file
present and existing processed images, an `epub` run still re-processes
the chapter instead of reusing the files — resume reuse is not granted
"for every output format". -/
theorem resume_reuse_counterexample :
    chapter_resume_action true true .epub ["p_1_001.jpg"] =
      .reprocess ∧
    ResumeAction.reprocess ≠ .reuse ["p_1_001.jpg"] := by
  constructor
  · rfl
  · intro h
    cases h

/-- C4 (amended): in resume mode, a chapter whose marker file exists is
treated as already packaged only for the `cbz` output format and only when
its existing processed files are found (they are then collected and
reused with no re-download); for `epub`, `pdf` and `none` output the
chapter is re-processed, as it is when the marker or resume mode is
absent or no processed files remain. -/
theorem resume_reuse_cbz_only :
    (∀ imgs : List String, imgs ≠ [] →
        chapter_resume_action true true .cbz imgs = .reuse imgs) ∧
    (∀ (fmt : OutFormat) (imgs : List String),
        fmt = .epub ∨ fmt = .pdf ∨ fmt = .fnone →
        chapter_resume_action true true fmt imgs = .reprocess) ∧
    (chapter_resume_action true true .cbz [] = .reprocess) ∧
    (∀ (rm mk : Bool) (fmt : OutFormat) (imgs : List String),
        rm = false ∨ mk = false →
        chapter_resume_action rm mk fmt imgs = .reprocess) := by
  refine ⟨?_, ?_, rfl, ?_⟩
  · intro imgs hne
    match imgs with
    | [] => exact absurd rfl hne
    | i :: is => rfl
  · intro fmt imgs hf
    unfold chapter_resume_action
    rw [if_pos ⟨rfl, rfl⟩, if_pos hf]
  · intro rm mk fmt imgs h
    unfold chapter_resume_action
    have : ¬(rm = true ∧ mk = true) := by
      rcases h with rfl | rfl <;> simp
    rw [if_neg this]

/-- Witness for the amended C4: a concrete cbz chapter with one processed
file is reused; a concrete pdf chapter is re-processed. -/
theorem resume_reuse_cbz_only_witness :
    chapter_resume_action true true .cbz ["p_1_001.jpg"] =
      .reuse ["p_1_001.jpg"] ∧
    chapter_resume_action true true .pdf ["p_1_001.jpg"] = .reprocess ∧
    chapter_resume_action false true .cbz ["p_1_001.jpg"] = .reprocess :=
  ⟨resume_reuse_cbz_only.1 ["p_1_001.jpg"] (by decide),
    resume_reuse_cbz_only.2.1 .pdf ["p_1_001.jpg"] (Or.inr (Or.inl rfl)),
    resume_reuse_cbz_only.2.2.2 false true .cbz ["p_1_001.jpg"]
      (Or.inl rfl)⟩

/-! ### RunController: book-part splitting

A chapter that reaches the split code has non-empty `chapter_content`
(`if not chapter_content: continue`); it is modelled by its label, its
number of content items and its byte size.  `build_book_part` builds an
archive only when the part's content list is non-empty and the format is
`pdf`, `epub` or `cbz` (for `none` no branch matches). -/

structure ChapterData where
  label : Nat
  items : Nat
  size : Int
deriving DecidableEq

/-- The accumulating run state: `build_book_part` invocation log
(content-item count and chapter labels of each flushed part) plus the
current part's content count, chapter labels and byte size. -/
structure BookAcc where
  events : List (Nat × List Nat)
  content : Nat
  chapters : List Nat
  size : Int
deriving DecidableEq

/-- One chapter of the main loop (lines 2061-2098): flush the current
part when the size threshold would be exceeded with non-empty content or
the chapter count has reached the limit, then add the chapter to the
(possibly fresh) part. -/
def bookStep (ss sc : Int) (acc : BookAcc) (ch : ChapterData) : BookAcc :=
  let acc1 :=
    if (0 < ss ∧ acc.content ≠ 0 ∧ ss < acc.size + ch.size) ∨
        (0 < sc ∧ sc ≤ (acc.chapters.length : Int)) then
      { events := acc.events ++ [(acc.content, acc.chapters)],
        content := 0, chapters := [], size := 0 }
    else acc
  { events := acc1.events, content := acc1.content + ch.items,
    chapters := acc1.chapters ++ [ch.label], size := acc1.size + ch.size }

/-- The whole chapter loop; `initContent`/`initSize` model the cover
image that cbz runs put into the first part before any chapter. -/
def runBookLoop (ss sc : Int) (initContent : Nat) (initSize : Int)
    (chs : List ChapterData) : BookAcc :=
  chs.foldl (bookStep ss sc)
    { events := [], content := initContent, chapters := [], size := initSize }

/-- The archives actually built in a run: `build_book_part` builds one
archive per invocation with non-empty content for `pdf`/`epub`/`cbz` and
never for format `none`; at the end of the loop the remaining non-empty
part is built (via `build_book_part` when splitting is configured, or as
the single final file otherwise) — except for format `none`, where the
remainder is silently discarded (line 2101). -/
def built_parts (fmt : OutFormat) (ss sc : Int) (initContent : Nat)
    (initSize : Int) (chs : List ChapterData) : List (Nat × List Nat) :=
  let acc := runBookLoop ss sc initContent initSize chs
  if fmt = .fnone then []
  else
    (acc.events ++
        if acc.content ≠ 0 then [(acc.content, acc.chapters)] else []).filter
      (fun e => decide (e.1 ≠ 0))

/-- Counterexample to C6 as stated: with `split_chapter_count = 2`, five
chapters that each yield content, and output format `none`, no book part
is ever built (`build_book_part` has no branch for format `none` and the
final-part flush is skipped), so "exactly 3 book parts" and "the last
non-empty part is always flushed" both fail for that run. -/
theorem split_parts_counterexample :
    (built_parts .fnone 0 2 0 0
        [⟨1, 1, 10⟩, ⟨2, 1, 10⟩, ⟨3, 1, 10⟩, ⟨4, 1, 10⟩, ⟨5, 1, 10⟩]).length
      = 0 ∧
    (built_parts .cbz 0 2 0 0
        [⟨1, 1, 10⟩, ⟨2, 1, 10⟩, ⟨3, 1, 10⟩, ⟨4, 1, 10⟩, ⟨5, 1, 10⟩]).map
        (fun e => e.2.length) = [2, 2, 1] := by
  decide

/-- C6 (amended): for archive output formats (`pdf`, `epub`, `cbz`), a
run with `split_chapter_count = 2` and five chapters that each yield
content builds exactly three parts with chapter counts `[2, 2, 1]`; in
general a part is flushed before adding a chapter exactly when its
chapter count has reached the configured limit or adding the chapter's
size would exceed the byte threshold with the part non-empty; and the
last non-empty part is always flushed at the end of the run — unless the
output format is `none`, which builds no archives at all. -/
theorem split_by_chapter_count :
    (∀ (fmt : OutFormat) (ic : Nat) (isz : Int) (c1 c2 c3 c4 c5 : ChapterData),
        fmt ≠ .fnone →
        c1.items ≠ 0 → c3.items ≠ 0 → c5.items ≠ 0 →
        (built_parts fmt 0 2 ic isz [c1, c2, c3, c4, c5]).map
            (fun e => e.2.length) = [2, 2, 1]) ∧
    (∀ (ss sc : Int) (acc : BookAcc) (ch : ChapterData),
        (bookStep ss sc acc ch).events =
          (if (0 < ss ∧ acc.content ≠ 0 ∧ ss < acc.size + ch.size) ∨
              (0 < sc ∧ sc ≤ (acc.chapters.length : Int))
           then acc.events ++ [(acc.content, acc.chapters)]
           else acc.events)) ∧
    (∀ (fmt : OutFormat) (ss sc : Int) (ic : Nat) (isz : Int)
        (chs : List ChapterData),
        fmt ≠ .fnone → (runBookLoop ss sc ic isz chs).content ≠ 0 →
        built_parts fmt ss sc ic isz chs =
          (runBookLoop ss sc ic isz chs).events.filter
              (fun e => decide (e.1 ≠ 0)) ++
            [((runBookLoop ss sc ic isz chs).content,
              (runBookLoop ss sc ic isz chs).chapters)]) := by
  refine ⟨?_, ?_, ?_⟩
  · intro fmt ic isz c1 c2 c3 c4 c5 hf h1 h3 h5
    obtain ⟨l1, i1, s1⟩ := c1
    obtain ⟨l2, i2, s2⟩ := c2
    obtain ⟨l3, i3, s3⟩ := c3
    obtain ⟨l4, i4, s4⟩ := c4
    obtain ⟨l5, i5, s5⟩ := c5
    simp only at h1 h3 h5
    have hrun : runBookLoop 0 2 ic isz
        [⟨l1, i1, s1⟩, ⟨l2, i2, s2⟩, ⟨l3, i3, s3⟩, ⟨l4, i4, s4⟩,
          ⟨l5, i5, s5⟩] =
        { events := [(ic + i1 + i2, [l1, l2]), (i3 + i4, [l3, l4])],
          content := i5, chapters := [l5], size := s5 } := by
      unfold runBookLoop
      simp [bookStep]
    unfold built_parts
    rw [hrun, if_neg hf]
    have e1 : ic + i1 + i2 ≠ 0 := by omega
    have e2 : i3 + i4 ≠ 0 := by omega
    simp [List.filter_cons, e1, e2, h5]
  · intro ss sc acc ch
    by_cases hc : (0 < ss ∧ acc.content ≠ 0 ∧ ss < acc.size + ch.size) ∨
        (0 < sc ∧ sc ≤ (acc.chapters.length : Int))
    · simp [bookStep, hc]
    · simp [bookStep, hc]
  · intro fmt ss sc ic isz chs hf hc
    unfold built_parts
    rw [if_neg hf, if_pos hc, List.filter_append]
    congr 1
    simp [hc]

/-- Witness for the amended C6: five concrete content-bearing chapters in
a cbz run split into parts of chapter counts 2, 2 and 1, and the step
flush predicate evaluates as stated on a concrete state. -/
theorem split_by_chapter_count_witness :
    (built_parts .cbz 0 2 0 0
        [⟨1, 2, 10⟩, ⟨2, 1, 10⟩, ⟨3, 1, 20⟩, ⟨4, 3, 10⟩, ⟨5, 1, 5⟩]).map
        (fun e => e.2.length) = [2, 2, 1] ∧
    built_parts .epub 0 0 0 0 [⟨7, 4, 10⟩] =
      (runBookLoop 0 0 0 0 [⟨7, 4, 10⟩]).events.filter
          (fun e => decide (e.1 ≠ 0)) ++
        [((runBookLoop 0 0 0 0 [⟨7, 4, 10⟩]).content,
          (runBookLoop 0 0 0 0 [⟨7, 4, 10⟩]).chapters)] :=
  ⟨split_by_chapter_count.1 .cbz 0 0 ⟨1, 2, 10⟩ ⟨2, 1, 10⟩ ⟨3, 1, 20⟩
      ⟨4, 3, 10⟩ ⟨5, 1, 5⟩ (by decide) (by decide) (by decide) (by decide),
    split_by_chapter_count.2.2 .epub 0 0 0 0 [⟨7, 4, 10⟩] (by decide)
      (by decide)⟩

end AIOWebtoon
